import Mathlib

/-!
# Verification of the samurai target engine (`src/target.rs`)

This file is a shallow embedding of the target-dependency-graph engine of the
repository: the types `MixedDeps` and `Target`, resolution (`MixedDeps::split`),
finalization (`Target::finalize`, `Target::finalize_list`) and the updater
(`Target::update`), together with theorems settling the specification claims.

Modelling conventions:

* `PathBuf` and command strings are `String`; `SystemTime` is `Nat`.
* Rust panics (`panic!`, `.unwrap()` on `None`/`Err`) are modelled as
  `Except.error` carrying a `Panic` value naming the panic site.  A `Panic`
  aborts the process in the source; keeping the sites distinct lets theorems
  distinguish the individual failure modes.
* The `Box<TargetExtra>` trait object is modelled by a function field
  `extra : String → String → Bool`; `Target::has_name` applies it to the
  target's own name and the candidate name.  The repository's only
  implementation is the trait default `tgt.name == name`, which consults no
  other field of the target.
* `HashMap<String, Target>` is modelled as an insertion-ordered association
  list `PostMap`.  `values()` iterates in insertion order.
* General recursion (the finalizer consumes targets from a shared pending
  pool, the updater walks a possibly cyclic map) is made structural with an
  explicit fuel parameter; exhausted fuel yields the artificial error
  `Panic.fuelOut`, and the entry points supply fuel that the theorems show
  (or the hypotheses guarantee) is never exhausted on the runs they describe.
* Filesystem metadata and process execution are modelled as function
  parameters `fs : String → FsMeta` and `run : String → CmdOutcome`.
  `Target.update` additionally returns the trace of commands whose execution
  was attempted (each `cmd.status()` call, in order), so that theorems can
  speak about which commands ran.
-/

namespace Smake

/-- Result of probing `fs::metadata(path)` followed by `.modified()`:
the file exists with a modification time, it does not exist, or the
operating system reported some other I/O error. -/
inductive FsMeta where
  | mtime (t : Nat)
  | missing
  | ioError
  deriving DecidableEq

/-- Outcome of `Command::status()` on a shell-wrapped command: the process
exited with a code, was terminated by a signal (`code()` returned `None`),
or spawning failed with an I/O error. -/
inductive CmdOutcome where
  | exit (code : Int)
  | signal
  | ioError
  deriving DecidableEq

/-- The panic sites of `src/target.rs`, plus the artificial `fuelOut` used to
make the embedding's general recursion structural.  In the source every one
of these aborts the process. -/
inductive Panic where
  /-- `panic!("Cyclic dependency found for {}!", dep)` in `Target::finalize`. -/
  | cyclicDependency (dep : String)
  /-- `panic!("Dependency {} not found!", dep)` in `MixedDeps::split`. -/
  | depNotFound (dep : String)
  /-- `panic!("Duplicate target {} found!", tgt.name)` in `Target::finalize`. -/
  | duplicateTarget (name : String)
  /-- `panic!("Input files are still mixed!")` in `Target::inputs`. -/
  | inputsStillMixed
  /-- `panic!("Dependencies are still mixed!")` in `Target::dependencies`. -/
  | depsStillMixed
  /-- `list.get(dep).unwrap()` on a name absent from the map in `Target::update`. -/
  | missingTarget (dep : String)
  /-- `fs::metadata(p).unwrap().modified().unwrap()` failing for an input path
  in `Target::update`. -/
  | metadataUnwrap (path : String)
  /-- Artificial: the embedding's fuel ran out (no source counterpart). -/
  | fuelOut
  deriving DecidableEq

/-- The `UpdateErr` error enum (`Io` drops its `io::Error` payload). -/
inductive UpdateErr where
  | Io
  | Status (status : Int)
  | Signal
  deriving DecidableEq

/-- How a call to `Target::update` can fail: by returning an `UpdateErr`
value, by panicking, or (artificially) by fuel exhaustion. -/
inductive UpdateFailure where
  | err (e : UpdateErr)
  | panic (p : Panic)
  | fuelOut
  deriving DecidableEq

/-- The `MixedDeps` enum: an unresolved list of dependency-or-input names, or
the resolved split into input paths and dependency target names. -/
inductive MixedDeps where
  | Mixed (deps : List String)
  | UnMixed (inputs : List String) (dependencies : List String)

/-- `MixedDeps::split`: resolve names with a predicate.  `none` marks an input
file; `some none` a dependency already under its primary name; `some (some c)`
a dependency to be referred to by the primary name `c`.  The `UnMixed` arm
panics (here: errors) when a dependency is not found by the predicate. -/
def MixedDeps.split (d : MixedDeps) (predicate : String → Option (Option String)) :
    Except Panic (List String × List String) :=
  match d with
  | .Mixed deps =>
      .ok (deps.foldl
        (fun res dep =>
          match predicate dep with
          | some name => (res.1, res.2 ++ [name.getD dep])
          | none => (res.1 ++ [dep], res.2))
        ([], []))
  | .UnMixed inputs dependencies =>
      (dependencies.foldlM
        (fun res dep =>
          match predicate dep with
          | some name => Except.ok (res ++ [name.getD dep])
          | none => Except.error (Panic.depNotFound dep))
        []).map (fun deps => (inputs, deps))

/-- The `Target` struct.  `extra` is the `has_name` capability of the boxed
`TargetExtra` trait object, applied to the target's own name. -/
structure Target where
  name : String
  outputs : List String
  dependencies : MixedDeps
  commands : List String
  extra : String → String → Bool

/-- The default `TargetExtra::has_name`: exact match against the primary name. -/
def defaultExtra : String → String → Bool := fun tname n => tname == n

/-- `tgt.extra.has_name(tgt, name)`. -/
def Target.has_name (t : Target) (n : String) : Bool := t.extra t.name n

/-- `Target::inputs`: the input files, panicking while still mixed. -/
def Target.inputs (t : Target) : Except Panic (List String) :=
  match t.dependencies with
  | .UnMixed inputs _ => .ok inputs
  | .Mixed _ => .error .inputsStillMixed

/-- `Target::dependencies` (the accessor method, distinguished from the field
of the same name): the dependency names, panicking while still mixed. -/
def Target.dependencies' (t : Target) : Except Panic (List String) :=
  match t.dependencies with
  | .UnMixed _ dependencies => .ok dependencies
  | .Mixed _ => .error .depsStillMixed

/-- The finalized map `HashMap<String, Target>`, as an insertion-ordered
association list. -/
abbrev PostMap := List (String × Target)

/-- `HashMap::get`: the value stored under a key, if any. -/
def lookupPost (m : PostMap) (k : String) : Option Target :=
  (m.find? (fun e => e.1 == k)).map Prod.snd

/-- `list.iter().position(p)` followed by `list.remove(loc)`: the first
element satisfying `p` together with the list with that element removed. -/
def removeFirst (p : α → Bool) : List α → Option (α × List α)
  | [] => none
  | t :: ts =>
    if p t then some (t, ts)
    else (removeFirst p ts).map (fun r => (r.1, t :: r.2))

/-- `Vec::pop`: the last element and the remaining prefix. -/
def popBack (l : List Target) : Option (Target × List Target) :=
  match l.getLast? with
  | none => none
  | some t => some (t, l.dropLast)

/-- The lookup predicate built in `Target::finalize`: search the still-pending
targets, then the already-finalized ones, for the first target whose
`has_name` accepts the candidate; report whether the match already carries its
primary name. -/
def finalizeLookup (list : List Target) (post : PostMap) (dep : String) :
    Option (Option String) :=
  ((list ++ post.map Prod.snd).find? (fun tgt => tgt.has_name dep)).map
    (fun target => if target.name == dep then none else some target.name)

/-- One iteration of the dependency loop of `Target::finalize`, the recursive
call abstracted as `fin`: panic if the dependency is already on the
in-progress path, otherwise remove it from the pending pool (if present)
and finalize it. -/
def finalizeStep
    (fin : Target → List Target → PostMap → Except Panic (List Target × PostMap))
    (path' : List String) (st : List Target × PostMap) (dep : String) :
    Except Panic (List Target × PostMap) :=
  if path'.contains dep then
    .error (.cyclicDependency dep)
  else
    match removeFirst (fun t => t.name == dep) st.1 with
    | some (tgt, rest) => fin tgt rest st.2
    | none => .ok st

/-- `Target::finalize`, fuelled.  Resolves the target's dependency list
against pending-then-finalized targets, walks each resolved dependency in
order (`finalizeStep`), and finally stores the target, with its dependencies
now `UnMixed`, in the output map, panicking on a duplicate primary name.
One unit of fuel is spent per recursive call; the nesting depth is bounded
by the pending-pool size, so `list.length + 1` fuel always suffices. -/
def finalizeF : Nat → Target → List Target → PostMap → List String →
    Except Panic (List Target × PostMap)
  | 0, _, _, _, _ => .error .fuelOut
  | fuel + 1, self, list, post, path =>
    match self.dependencies.split (finalizeLookup list post) with
    | .error e => .error e
    | .ok (inputs, dependencies) =>
      match dependencies.foldlM
          (finalizeStep
            (fun tgt rest post => finalizeF fuel tgt rest post (self.name :: path))
            (self.name :: path))
          (list, post) with
      | .error e => .error e
      | .ok (list', post') =>
        match lookupPost post' self.name with
        | some tgt => .error (.duplicateTarget tgt.name)
        | none => .ok (list', post' ++
            [(self.name,
              { self with dependencies := MixedDeps.UnMixed inputs dependencies })])

/-- The loop of `Target::finalize_list`: keep popping pending targets and
finalizing each (the in-progress path is empty between iterations, since
`finalize` restores it).  Fuelled per iteration. -/
def finalizeListF : Nat → List Target → PostMap → Except Panic PostMap
  | 0, list, post =>
    match popBack list with
    | none => .ok post
    | some _ => .error .fuelOut
  | fuel + 1, list, post =>
    match popBack list with
    | none => .ok post
    | some (elem, rest) =>
      match finalizeF (rest.length + 1) elem rest post [] with
      | .error e => .error e
      | .ok (list', post') => finalizeListF fuel list' post'

/-- `Target::finalize_list`: finalize a whole list of targets into a map.
The loop runs at most `length` iterations (each consumes at least the popped
target), so `length` fuel suffices for the loop. -/
def Target.finalize_list (list : List Target) : Except Panic PostMap :=
  finalizeListF list.length list []

/-- Modification times of the input paths, in order:
`inputs.iter().map(|p| fs::metadata(p).unwrap().modified().unwrap())`.
The first input whose metadata cannot be read panics. -/
def inputMTimes (fs : String → FsMeta) : List String → Except Panic (List Nat)
  | [] => .ok []
  | p :: rest =>
    match fs p with
    | .mtime t => (inputMTimes fs rest).map (fun ts => t :: ts)
    | _ => .error (.metadataUnwrap p)

/-- The command loop of `Target::update`: run each command through the shell
in order, stopping at the first non-zero exit status, signal termination, or
spawn failure.  Returns the trace of commands whose execution was attempted
together with the outcome. -/
def runCommands (run : String → CmdOutcome) :
    List String → List String × Except UpdateFailure Unit
  | [] => ([], .ok ())
  | cmd :: rest =>
    match run cmd with
    | .ioError => ([cmd], .error (.err .Io))
    | .signal => ([cmd], .error (.err .Signal))
    | .exit code =>
      if code = 0 then
        let r := runCommands run rest
        (cmd :: r.1, r.2)
      else ([cmd], .error (.err (.Status code)))

/-- One step of the `try_fold` over dependencies in `Target::update`, the
recursive call abstracted as `upd`: on an already-failed accumulator do
nothing; otherwise look the dependency up (panicking when absent), update it,
and OR its result into the accumulator, concatenating its command trace. -/
def updateDepStep (upd : Target → List String × Except UpdateFailure Bool)
    (list : PostMap) (acc : List String × Except UpdateFailure Bool)
    (dep : String) : List String × Except UpdateFailure Bool :=
  match acc with
  | (tr, .ok res) =>
    match lookupPost list dep with
    | none => (tr, .error (.panic (.missingTarget dep)))
    | some tgt =>
      let r := upd tgt
      (tr ++ r.1, r.2.map (fun b => res || b))
  | e => e

/-- `Target::update`, fuelled.  First updates every dependency in order,
fail-fast, OR-ing whether any reported an update; if none did, probes the
input modification times (panicking on a metadata failure) and forces an
update when there are no inputs, or when some output is missing (any
metadata failure counting as missing) or strictly older than the newest
input; if forced, runs the commands.  Returns the attempted-command trace
with the result. -/
def Target.update (fuel : Nat) (self : Target) (list : PostMap)
    (fs : String → FsMeta) (run : String → CmdOutcome) :
    List String × Except UpdateFailure Bool :=
  match fuel with
  | 0 => ([], .error .fuelOut)
  | fuel + 1 =>
    match self.dependencies with
    | .Mixed _ => ([], .error (.panic .depsStillMixed))
    | .UnMixed inputs deps =>
      let depRes := deps.foldl
        (updateDepStep (fun tgt => Target.update fuel tgt list fs run) list)
        ([], .ok false)
      match depRes with
      | (tr, .error e) => (tr, .error e)
      | (tr, .ok depForced) =>
        let force : Except Panic Bool :=
          if depForced then .ok true
          else
            match inputMTimes fs inputs with
            | .error p => .error p
            | .ok times =>
              .ok (match times.max? with
                   | none => true
                   | some latest =>
                     self.outputs.any (fun o =>
                       match fs o with
                       | .mtime t => decide (t < latest)
                       | _ => true))
        match force with
        | .error p => (tr, .error (.panic p))
        | .ok false => (tr, .ok false)
        | .ok true =>
          let r := runCommands run self.commands
          (tr ++ r.1, r.2.map (fun _ => true))

/-! ## Observation helpers for concrete statements

`Target` carries a function field, so theorems about concrete runs compare
decidable projections of the results instead of whole targets. -/

/-- The inputs and dependency names of a dependency list, when resolved. -/
def depsSummary : MixedDeps → Option (List String × List String)
  | .Mixed _ => none
  | .UnMixed i d => some (i, d)

/-- Keys and resolved dependency shapes of a finalized map. -/
def postSummary (m : PostMap) : List (String × Option (List String × List String)) :=
  m.map (fun e => (e.1, depsSummary e.2.dependencies))

/-- A target with the default `has_name` capability and no outputs or
commands, used by the concrete scenarios. -/
def mkT (name : String) (deps : MixedDeps) : Target :=
  ⟨name, [], deps, [], defaultExtra⟩

/-- The raw dependency-or-input names of a target: the whole mixed list, or
the dependency names of an already-split list. -/
def rawDepNames (t : Target) : List String :=
  match t.dependencies with
  | .Mixed deps => deps
  | .UnMixed _ deps => deps

/-- The names that `MixedDeps::split` must resolve or panic: the dependency
names of an `UnMixed` list (a `Mixed` list never fails to resolve). -/
def unmixedDepNames (t : Target) : List String :=
  match t.dependencies with
  | .Mixed _ => []
  | .UnMixed _ deps => deps

/-- The target's `has_name` capability behaves like the trait default:
exact match against the primary name.  This is the only implementation the
repository contains. -/
def ExactExtra (t : Target) : Prop := ∀ n, t.has_name n = (t.name == n)

/-! ## Basic lemmas about the embedding's helpers -/

theorem removeFirst_eq_none_iff (p : α → Bool) (l : List α) :
    removeFirst p l = none ↔ ∀ x ∈ l, p x = false := by
  induction l with
  | nil => simp [removeFirst]
  | cons a l ih =>
    by_cases h : p a
    · simp [removeFirst, h]
    · simp [removeFirst, h, ih]

theorem removeFirst_eq_some (p : α → Bool) :
    ∀ (l l' : List α) (a : α), removeFirst p l = some (a, l') →
      p a = true ∧ ∃ s t, l = s ++ a :: t ∧ l' = s ++ t ∧ ∀ x ∈ s, p x = false := by
  intro l
  induction l with
  | nil => intro l' a h; simp [removeFirst] at h
  | cons b l ih =>
    intro l' a h
    by_cases hb : p b
    · rw [removeFirst, if_pos hb] at h
      obtain ⟨rfl, rfl⟩ := Prod.mk.injEq .. ▸ Option.some.inj h
      exact ⟨hb, [], l, rfl, rfl, by simp⟩
    · rw [removeFirst, if_neg hb] at h
      obtain ⟨⟨a', l₂⟩, hr, hmk⟩ := Option.map_eq_some'.mp h
      obtain ⟨rfl, rfl⟩ := Prod.mk.injEq .. ▸ hmk
      obtain ⟨hpa, s, t, rfl, rfl, hs⟩ := ih l₂ a' hr
      exact ⟨hpa, b :: s, t, rfl, rfl, by
        intro x hx
        rcases List.mem_cons.mp hx with rfl | hx
        · simpa using hb
        · exact hs x hx⟩

theorem popBack_eq_none_iff (l : List Target) : popBack l = none ↔ l = [] := by
  unfold popBack
  cases h : l.getLast? with
  | none => simpa using List.getLast?_eq_none_iff.mp h
  | some t =>
    obtain ⟨ys, rfl⟩ := List.getLast?_eq_some_iff.mp h
    simp

theorem popBack_eq_some (l r : List Target) (t : Target) :
    popBack l = some (t, r) → l = r ++ [t] := by
  unfold popBack
  cases h : l.getLast? with
  | none => simp
  | some t' =>
    obtain ⟨ys, rfl⟩ := List.getLast?_eq_some_iff.mp h
    intro hmk
    obtain ⟨rfl, rfl⟩ := Prod.mk.injEq .. ▸ Option.some.inj hmk
    rw [List.dropLast_concat]

theorem lookupPost_eq_none_iff (m : PostMap) (k : String) :
    lookupPost m k = none ↔ k ∉ m.map Prod.fst := by
  simp only [lookupPost, Option.map_eq_none', List.find?_eq_none, List.mem_map]
  constructor
  · rintro h ⟨⟨k', v⟩, hmem, rfl⟩
    simpa using h _ hmem
  · intro h e hmem
    simp only [beq_iff_eq]
    intro he
    exact h ⟨e, hmem, he⟩

theorem lookupPost_mem {m : PostMap} {k : String} {v : Target} :
    lookupPost m k = some v → (k, v) ∈ m := by
  simp only [lookupPost, Option.map_eq_some']
  rintro ⟨⟨k', v'⟩, hfind, rfl⟩
  have hk : k' = k := by simpa using List.find?_some hfind
  subst hk
  exact List.mem_of_find?_eq_some hfind

theorem split_mixed_foldl (predicate : String → Option (Option String)) :
    ∀ (deps : List String) (acc : List String × List String),
      deps.foldl
        (fun res dep =>
          match predicate dep with
          | some name => (res.1, res.2 ++ [name.getD dep])
          | none => (res.1 ++ [dep], res.2))
        acc =
      (acc.1 ++ deps.filter (fun dep => (predicate dep).isNone),
       acc.2 ++ deps.filterMap (fun dep => (predicate dep).map (fun name => name.getD dep))) := by
  intro deps
  induction deps with
  | nil => intro acc; simp
  | cons d deps ih =>
    intro acc
    cases h : predicate d with
    | none => simp [h, ih]
    | some name => simp [h, ih]

/-- `MixedDeps::split` on a `Mixed` list: an order-preserving partition of the
names, where a name the predicate rejects becomes an input path and a name it
accepts contributes its canonical substitute (or itself when the predicate
reports none). -/
theorem split_mixed_eq (predicate : String → Option (Option String))
    (deps : List String) :
    MixedDeps.split (.Mixed deps) predicate =
      .ok (deps.filter (fun dep => (predicate dep).isNone),
           deps.filterMap (fun dep => (predicate dep).map (fun name => name.getD dep))) := by
  rw [MixedDeps.split, split_mixed_foldl]
  simp

theorem split_unmixed_foldlM (predicate : String → Option (Option String)) :
    ∀ (deps : List String) (acc : List String),
      (∀ d ∈ deps, predicate d = some none) →
      deps.foldlM
        (fun res dep =>
          match predicate dep with
          | some name => Except.ok (res ++ [name.getD dep])
          | none => Except.error (Panic.depNotFound dep))
        acc = .ok (acc ++ deps) := by
  intro deps
  induction deps with
  | nil => intro acc _; simp; rfl
  | cons d deps ih =>
    intro acc h
    have hd : predicate d = some none := h d (by simp)
    rw [List.foldlM_cons, hd]
    show (deps.foldlM _ (acc ++ [d]) : Except Panic _) = _
    rw [ih (acc ++ [d]) (fun d' hd' => h d' (by simp [hd']))]
    simp

theorem split_unmixed_all_found (predicate : String → Option (Option String))
    (inputs deps : List String) (h : ∀ d ∈ deps, predicate d = some none) :
    MixedDeps.split (.UnMixed inputs deps) predicate = .ok (inputs, deps) := by
  rw [MixedDeps.split, split_unmixed_foldlM predicate deps [] h]
  rfl

theorem finalizeLookup_eq_none_iff (list : List Target) (post : PostMap)
    (dep : String) :
    finalizeLookup list post dep = none ↔
      ∀ t ∈ list ++ post.map Prod.snd, t.has_name dep = false := by
  simp only [finalizeLookup, Option.map_eq_none', List.find?_eq_none,
    Bool.not_eq_true, List.mem_append]

theorem finalizeLookup_some_of_wf {list : List Target} {post : PostMap}
    (hl : ∀ t ∈ list, ExactExtra t)
    (hp : ∀ e ∈ post, ExactExtra e.2 ∧ e.2.name = e.1)
    {dep : String} {o : Option String}
    (h : finalizeLookup list post dep = some o) :
    o = none ∧ dep ∈ list.map Target.name ++ post.map Prod.fst := by
  obtain ⟨t, hfind, rfl⟩ := Option.map_eq_some'.mp h
  have hpt0 := List.find?_some hfind
  have hpt : t.has_name dep = true := hpt0
  have hmem : t ∈ list ++ post.map Prod.snd := List.mem_of_find?_eq_some hfind
  have hname : t.name = dep := by
    rcases List.mem_append.mp hmem with hmem | hmem
    · have := hl t hmem dep
      rw [this] at hpt
      exact beq_iff_eq.mp hpt
    · obtain ⟨e, he, rfl⟩ := List.mem_map.mp hmem
      have := (hp e he).1 dep
      rw [this] at hpt
      exact beq_iff_eq.mp hpt
  constructor
  · simp [hname]
  · rcases List.mem_append.mp hmem with hmem | hmem
    · exact List.mem_append.mpr (.inl (hname ▸ List.mem_map_of_mem Target.name hmem))
    · obtain ⟨e, he, rfl⟩ := List.mem_map.mp hmem
      refine List.mem_append.mpr (.inr ?_)
      rw [← hname, (hp e he).2]
      exact List.mem_map_of_mem Prod.fst he

theorem finalizeLookup_found_of_wf {list : List Target} {post : PostMap}
    (hl : ∀ t ∈ list, ExactExtra t)
    (hp : ∀ e ∈ post, ExactExtra e.2 ∧ e.2.name = e.1)
    {dep : String}
    (hmem : dep ∈ list.map Target.name ++ post.map Prod.fst) :
    finalizeLookup list post dep = some none := by
  have hex : ∃ t ∈ list ++ post.map Prod.snd, t.has_name dep = true := by
    rcases List.mem_append.mp hmem with hmem | hmem
    · obtain ⟨t, ht, rfl⟩ := List.mem_map.mp hmem
      exact ⟨t, List.mem_append.mpr (.inl ht), by simp [hl t ht t.name]⟩
    · obtain ⟨e, he, rfl⟩ := List.mem_map.mp hmem
      refine ⟨e.2, List.mem_append.mpr (.inr (List.mem_map_of_mem Prod.snd he)), ?_⟩
      rw [(hp e he).1 e.1, (hp e he).2]
      simp
  have hsome : ((list ++ post.map Prod.snd).find? (fun tgt => tgt.has_name dep)).isSome := by
    rw [List.find?_isSome]
    exact hex
  obtain ⟨t, hfind⟩ := Option.isSome_iff_exists.mp hsome
  have hres : finalizeLookup list post dep =
      some (if t.name == dep then none else some t.name) := by
    rw [finalizeLookup, hfind]
    rfl
  have hnone := (finalizeLookup_some_of_wf hl hp hres).1
  rw [hres, hnone]

/-! ## Lemmas about the updater's loops -/

theorem runCommands_append_ok (run : String → CmdOutcome) :
    ∀ (pre rest : List String), (∀ c ∈ pre, run c = .exit 0) →
      runCommands run (pre ++ rest) =
        (pre ++ (runCommands run rest).1, (runCommands run rest).2) := by
  intro pre
  induction pre with
  | nil => intro rest _; simp
  | cons c pre ih =>
    intro rest h
    have hc : run c = .exit 0 := h c (by simp)
    rw [List.cons_append, runCommands, hc]
    simp only [if_pos rfl]
    rw [ih rest (fun c' hc' => h c' (by simp [hc']))]
    simp

theorem runCommands_all_ok (run : String → CmdOutcome) (cmds : List String)
    (h : ∀ c ∈ cmds, run c = .exit 0) :
    runCommands run cmds = (cmds, .ok ()) := by
  have := runCommands_append_ok run cmds [] h
  simpa [runCommands] using this

theorem runCommands_status (run : String → CmdOutcome) (pre : List String)
    (c : String) (post : List String) (k : Int)
    (hpre : ∀ c' ∈ pre, run c' = .exit 0) (hc : run c = .exit k) (hk : k ≠ 0) :
    runCommands run (pre ++ c :: post) =
      (pre ++ [c], .error (.err (.Status k))) := by
  rw [runCommands_append_ok run pre (c :: post) hpre, runCommands, hc]
  simp [hk]

theorem runCommands_signal (run : String → CmdOutcome) (pre : List String)
    (c : String) (post : List String)
    (hpre : ∀ c' ∈ pre, run c' = .exit 0) (hc : run c = .signal) :
    runCommands run (pre ++ c :: post) = (pre ++ [c], .error (.err .Signal)) := by
  rw [runCommands_append_ok run pre (c :: post) hpre, runCommands, hc]

theorem updateDeps_foldl_error
    (upd : Target → List String × Except UpdateFailure Bool) (list : PostMap) :
    ∀ (deps : List String) (tr : List String) (e : UpdateFailure),
      deps.foldl (updateDepStep upd list) (tr, .error e) = (tr, .error e) := by
  intro deps
  induction deps with
  | nil => intro tr e; rfl
  | cons d deps ih =>
    intro tr e
    rw [List.foldl_cons]
    exact ih tr e

theorem updateDeps_foldl_all_ok
    (upd : Target → List String × Except UpdateFailure Bool) (list : PostMap)
    (trs : String → List String) (bs : String → Bool) :
    ∀ (deps : List String),
      (∀ d ∈ deps, ∃ u, lookupPost list d = some u ∧ upd u = (trs d, .ok (bs d))) →
      ∀ (tr₀ : List String) (b₀ : Bool),
        deps.foldl (updateDepStep upd list) (tr₀, .ok b₀) =
          (tr₀ ++ (deps.map trs).flatten, .ok (b₀ || deps.any bs)) := by
  intro deps
  induction deps with
  | nil => intro _ tr₀ b₀; simp
  | cons d deps ih =>
    intro h tr₀ b₀
    obtain ⟨u, hu, hupd⟩ := h d (by simp)
    rw [List.foldl_cons]
    have hstep : updateDepStep upd list (tr₀, .ok b₀) d =
        (tr₀ ++ trs d, .ok (b₀ || bs d)) := by
      rw [updateDepStep, hu]
      simp [hupd, Except.map]
    rw [hstep, ih (fun d' hd' => h d' (by simp [hd'])) (tr₀ ++ trs d) (b₀ || bs d)]
    simp [Bool.or_assoc]

theorem update_dep_error {fuel : Nat} {self : Target} {list : PostMap}
    {fs : String → FsMeta} {run : String → CmdOutcome}
    {inputs deps : List String} {tr : List String} {e : UpdateFailure}
    (hdeps : self.dependencies = .UnMixed inputs deps)
    (hfold : deps.foldl
        (updateDepStep (fun tgt => Target.update fuel tgt list fs run) list)
        ([], .ok false) = (tr, .error e)) :
    Target.update (fuel + 1) self list fs run = (tr, .error e) := by
  rw [Target.update, hdeps]
  simp only [hfold]

theorem update_dep_forced {fuel : Nat} {self : Target} {list : PostMap}
    {fs : String → FsMeta} {run : String → CmdOutcome}
    {inputs deps : List String} {tr : List String}
    (hdeps : self.dependencies = .UnMixed inputs deps)
    (hfold : deps.foldl
        (updateDepStep (fun tgt => Target.update fuel tgt list fs run) list)
        ([], .ok false) = (tr, .ok true)) :
    Target.update (fuel + 1) self list fs run =
      (tr ++ (runCommands run self.commands).1,
       (runCommands run self.commands).2.map (fun _ => true)) := by
  rw [Target.update, hdeps]
  simp [hfold]

theorem update_probe_panic {fuel : Nat} {self : Target} {list : PostMap}
    {fs : String → FsMeta} {run : String → CmdOutcome}
    {inputs deps : List String} {tr : List String} {p : Panic}
    (hdeps : self.dependencies = .UnMixed inputs deps)
    (hfold : deps.foldl
        (updateDepStep (fun tgt => Target.update fuel tgt list fs run) list)
        ([], .ok false) = (tr, .ok false))
    (hin : inputMTimes fs inputs = .error p) :
    Target.update (fuel + 1) self list fs run = (tr, .error (.panic p)) := by
  rw [Target.update, hdeps]
  simp [hfold, hin]

theorem update_probe_no_inputs {fuel : Nat} {self : Target} {list : PostMap}
    {fs : String → FsMeta} {run : String → CmdOutcome}
    {inputs deps : List String} {tr : List String} {times : List Nat}
    (hdeps : self.dependencies = .UnMixed inputs deps)
    (hfold : deps.foldl
        (updateDepStep (fun tgt => Target.update fuel tgt list fs run) list)
        ([], .ok false) = (tr, .ok false))
    (hin : inputMTimes fs inputs = .ok times)
    (hmax : times.max? = none) :
    Target.update (fuel + 1) self list fs run =
      (tr ++ (runCommands run self.commands).1,
       (runCommands run self.commands).2.map (fun _ => true)) := by
  rw [Target.update, hdeps]
  simp [hfold, hin, hmax]

theorem update_probe_stale {fuel : Nat} {self : Target} {list : PostMap}
    {fs : String → FsMeta} {run : String → CmdOutcome}
    {inputs deps : List String} {tr : List String} {times : List Nat}
    {latest : Nat}
    (hdeps : self.dependencies = .UnMixed inputs deps)
    (hfold : deps.foldl
        (updateDepStep (fun tgt => Target.update fuel tgt list fs run) list)
        ([], .ok false) = (tr, .ok false))
    (hin : inputMTimes fs inputs = .ok times)
    (hmax : times.max? = some latest)
    (hany : self.outputs.any (fun o =>
        match fs o with
        | .mtime t => decide (t < latest)
        | _ => true) = true) :
    Target.update (fuel + 1) self list fs run =
      (tr ++ (runCommands run self.commands).1,
       (runCommands run self.commands).2.map (fun _ => true)) := by
  rw [Target.update, hdeps]
  simp [hfold, hin, hmax, hany]

theorem update_probe_fresh {fuel : Nat} {self : Target} {list : PostMap}
    {fs : String → FsMeta} {run : String → CmdOutcome}
    {inputs deps : List String} {tr : List String} {times : List Nat}
    {latest : Nat}
    (hdeps : self.dependencies = .UnMixed inputs deps)
    (hfold : deps.foldl
        (updateDepStep (fun tgt => Target.update fuel tgt list fs run) list)
        ([], .ok false) = (tr, .ok false))
    (hin : inputMTimes fs inputs = .ok times)
    (hmax : times.max? = some latest)
    (hany : self.outputs.any (fun o =>
        match fs o with
        | .mtime t => decide (t < latest)
        | _ => true) = false) :
    Target.update (fuel + 1) self list fs run = (tr, .ok false) := by
  rw [Target.update, hdeps]
  simp [hfold, hin, hmax, hany]

/-! ## Finalization stores only resolved targets -/

/-- A map entry whose dependencies are in the resolved form. -/
def unmixedEntry (e : String × Target) : Prop :=
  ∃ i d, e.2.dependencies = MixedDeps.UnMixed i d

/-- Inversion of a successful `finalizeF` call: the dependency list was split
against the pending-then-finalized lookup, the dependency loop succeeded, the
target's name was not yet a key, and the target was appended with its
dependencies in `UnMixed` form. -/
theorem finalizeF_ok_inversion {fuel : Nat} {self : Target} {list : List Target}
    {post : PostMap} {path : List String} {list' : List Target} {post' : PostMap}
    (h : finalizeF (fuel + 1) self list post path = .ok (list', post')) :
    ∃ inputs dependencies p₂,
      MixedDeps.split self.dependencies (finalizeLookup list post) =
        .ok (inputs, dependencies) ∧
      dependencies.foldlM
        (finalizeStep
          (fun tgt rest post => finalizeF fuel tgt rest post (self.name :: path))
          (self.name :: path))
        (list, post) = .ok (list', p₂) ∧
      lookupPost p₂ self.name = none ∧
      post' = p₂ ++ [(self.name,
        { self with dependencies := MixedDeps.UnMixed inputs dependencies })] := by
  rw [finalizeF] at h
  split at h
  · exact absurd h (by simp)
  · split at h
    · exact absurd h (by simp)
    · split at h
      · exact absurd h (by simp)
      · rename_i x2 inputs dependencies hsplit x1 l2 p2 hfold x3 hlook
        obtain ⟨h1, h2⟩ := Prod.mk.injEq .. ▸ Except.ok.inj h
        subst h1
        exact ⟨inputs, dependencies, p2, hsplit, hfold, hlook, h2.symm⟩

theorem finalizeF_post_unmixed :
    ∀ (fuel : Nat) (self : Target) (list : List Target) (post : PostMap)
      (path : List String) (list' : List Target) (post' : PostMap),
      finalizeF fuel self list post path = .ok (list', post') →
      (∀ e ∈ post, unmixedEntry e) → ∀ e ∈ post', unmixedEntry e := by
  intro fuel
  induction fuel with
  | zero =>
    intro self list post path list' post' h
    rw [finalizeF] at h
    exact absurd h (by simp)
  | succ fuel ih =>
    intro self list post path list' post' h hpost
    obtain ⟨inputs, dependencies, p₂, hsplit, hfold, hlook, rfl⟩ :=
      finalizeF_ok_inversion h
    have hloop :
        ∀ (deps : List String) (l : List Target) (p : PostMap)
          (l₂ : List Target) (q₂ : PostMap),
          deps.foldlM
            (finalizeStep
              (fun tgt rest post => finalizeF fuel tgt rest post (self.name :: path))
              (self.name :: path))
            (l, p) = .ok (l₂, q₂) →
          (∀ e ∈ p, unmixedEntry e) → ∀ e ∈ q₂, unmixedEntry e := by
      intro deps
      induction deps with
      | nil =>
        intro l p l₂ q₂ hf hp
        rw [List.foldlM_nil] at hf
        obtain ⟨h1, h2⟩ := Prod.mk.injEq .. ▸ Except.ok.inj hf
        subst h2
        exact hp
      | cons d deps ihd =>
        intro l p l₂ q₂ hf hp
        rw [List.foldlM_cons] at hf
        cases hstep : finalizeStep
            (fun tgt rest post => finalizeF fuel tgt rest post (self.name :: path))
            (self.name :: path) (l, p) d with
        | error e =>
          rw [hstep] at hf
          exact absurd hf (fun hh => Except.noConfusion hh)
        | ok st =>
          rw [hstep] at hf
          have hf' : deps.foldlM
              (finalizeStep
                (fun tgt rest post => finalizeF fuel tgt rest post (self.name :: path))
                (self.name :: path))
              (st.1, st.2) = .ok (l₂, q₂) := hf
          have hst : ∀ e ∈ st.2, unmixedEntry e := by
            rw [finalizeStep] at hstep
            by_cases hc : (self.name :: path).contains d
            · rw [if_pos hc] at hstep
              exact absurd hstep (by simp)
            · rw [if_neg hc] at hstep
              cases hrem : removeFirst (fun t => t.name == d) (l, p).1 with
              | none =>
                rw [hrem] at hstep
                obtain rfl := Except.ok.inj hstep
                exact hp
              | some tr =>
                rw [hrem] at hstep
                exact ih tr.1 tr.2 p (self.name :: path) st.1 st.2 hstep hp
          exact ihd st.1 st.2 l₂ q₂ hf' hst
    intro e he
    rcases List.mem_append.mp he with he | he
    · exact hloop dependencies list post list' p₂ hfold hpost e he
    · rw [List.mem_singleton] at he
      subst he
      exact ⟨inputs, dependencies, rfl⟩

theorem finalizeListF_post_unmixed :
    ∀ (fuel : Nat) (list : List Target) (post : PostMap) (m : PostMap),
      finalizeListF fuel list post = .ok m →
      (∀ e ∈ post, unmixedEntry e) → ∀ e ∈ m, unmixedEntry e := by
  intro fuel
  induction fuel with
  | zero =>
    intro list post m h hp
    rw [finalizeListF] at h
    split at h
    · obtain rfl := Except.ok.inj h
      exact hp
    · exact absurd h (by simp)
  | succ fuel ih =>
    intro list post m h hp
    rw [finalizeListF] at h
    split at h
    · obtain rfl := Except.ok.inj h
      exact hp
    · rename_i elem rest hpop
      split at h
      · exact absurd h (by simp)
      · rename_i x l2 p2 hfin
        exact ih l2 p2 m h
          (finalizeF_post_unmixed (rest.length + 1) elem rest post [] l2 p2 hfin hp)

theorem find?_first_match (p : α → Bool) :
    ∀ (pre : List α) (t : α) (suf : List α),
      (∀ u ∈ pre, p u = false) → p t = true →
      (pre ++ t :: suf).find? p = some t := by
  intro pre
  induction pre with
  | nil =>
    intro t suf _ hpt
    rw [List.nil_append, List.find?_cons_of_pos _ hpt]
  | cons a pre ih =>
    intro t suf hpre hpt
    rw [List.cons_append, List.find?_cons_of_neg, ih t suf (fun u hu => hpre u (by simp [hu])) hpt]
    simp [hpre a (by simp)]

/-! ## Concrete targets and environments used by the scenario claims -/

/-- The spec's self-cycle scenario target: name `x`, `deps: ["x"]` (mixed). -/
def xSelf : Target := mkT "x" (.Mixed ["x"])

/-- A self-cycle given in already-split form: dependency names `["x"]`. -/
def xSelfUn : Target := mkT "x" (.UnMixed [] ["x"])

/-- A second, dependency-free target also named `x`. -/
def xDup : Target := mkT "x" (.Mixed [])

/-! ## Claims C7, C8, C1, C10 -/

/-- C7: resolving a `Mixed` dependency list with a lookup predicate is an
order-preserving partition of the name sequence: a name for which the
predicate returns `some (some canonical)` contributes `canonical` to the
dependency output, `some none` contributes the name itself (`Option.getD`),
and `none` sends the name to the input-path output; both outputs are
`filter`/`filterMap` images of the original sequence, hence keep its relative
order. -/
theorem claim_C7_split_partition (predicate : String → Option (Option String))
    (deps : List String) :
    MixedDeps.split (.Mixed deps) predicate =
      .ok (deps.filter (fun dep => (predicate dep).isNone),
           deps.filterMap (fun dep => (predicate dep).map (fun name => name.getD dep))) :=
  split_mixed_eq predicate deps

/-- C8: every target stored in a map produced by `Target::finalize_list` has
its dependencies in the resolved (`UnMixed`) form, and reading
`inputs`/`dependencies` of a target whose list is still mixed always fails
with the corresponding panic, never returning a value. -/
theorem claim_C8_finalized_resolved :
    (∀ (ts : List Target) (m : PostMap), Target.finalize_list ts = .ok m →
      ∀ e ∈ m, ∃ i d, e.2.dependencies = MixedDeps.UnMixed i d) ∧
    (∀ (t : Target) (ds : List String), t.dependencies = .Mixed ds →
      t.inputs = .error .inputsStillMixed ∧
      t.dependencies' = .error .depsStillMixed) := by
  constructor
  · intro ts m h
    exact finalizeListF_post_unmixed ts.length ts [] m h (by simp)
  · intro t ds hds
    rw [Target.inputs, Target.dependencies', hds]
    exact ⟨rfl, rfl⟩

theorem claim_C8_witness :
    (∃ i d, (Target.mk "x" [] (MixedDeps.UnMixed ["x"] []) [] defaultExtra).dependencies
        = MixedDeps.UnMixed i d) ∧
    (xSelf.inputs = .error .inputsStillMixed ∧
     xSelf.dependencies' = .error .depsStillMixed) :=
  ⟨claim_C8_finalized_resolved.1 [xSelf]
      [("x", Target.mk "x" [] (MixedDeps.UnMixed ["x"] []) [] defaultExtra)] rfl
      ("x", Target.mk "x" [] (MixedDeps.UnMixed ["x"] []) [] defaultExtra)
      (List.mem_singleton.mpr rfl),
   claim_C8_finalized_resolved.2 xSelf ["x"] rfl⟩

/-- C1 is false on the code at the spec's own concrete scenario: the raw list
`[{name:"x", deps:["x"]}]` finalizes successfully, with the self-reference
`"x"` classified as an input file — the resolution lookup searches only
still-pending and already-finalized targets, and `x` is neither while it is
itself being finalized — so no Cycle error (indeed no failure at all) is
produced. -/
theorem claim_C1_counterexample :
    (Target.finalize_list [xSelf]).map postSummary =
      .ok [("x", some (["x"], []))] := rfl

/-- C1 amended: a dependency chain A→…→A triggers the cyclic-dependency
panic only when the back-reference is re-resolvable through a *different*
pending or finalized target carrying that name (e.g. a duplicate).  With the
self-cycle alone, a `Mixed` back-reference becomes an input file and
finalization succeeds, and an `UnMixed` back-reference fails with the
missing-dependency panic instead. -/
theorem claim_C1_amended_behavior :
    (Target.finalize_list [xSelf]).map postSummary =
      .ok [("x", some (["x"], []))] ∧
    Target.finalize_list [xSelfUn] = .error (.depNotFound "x") ∧
    Target.finalize_list [xDup, xSelf] = .error (.cyclicDependency "x") :=
  ⟨rfl, rfl, rfl⟩

/-- C10: the lookup used to resolve a target's dependency names searches
exactly the still-pending targets followed by the already-finalized ones,
binding a name to the first target whose `has_name` accepts it; it reports
`none` precisely when no target of either collection matches — the target
being finalized and the in-progress path are consulted nowhere — and the
stored target's resolved dependencies come from exactly that lookup.
Concretely, finalizing the two-target cycle a→b→a classifies the
back-reference `"b"` (whose only possible match is in progress) as an input
file of `a`. -/
theorem claim_C10_lookup_scope :
    (∀ (fuel : Nat) (self : Target) (list : List Target) (post : PostMap)
       (path : List String) (list' : List Target) (post' : PostMap),
       finalizeF (fuel + 1) self list post path = .ok (list', post') →
       ∃ inputs dependencies p₂,
         MixedDeps.split self.dependencies (finalizeLookup list post) =
           .ok (inputs, dependencies) ∧
         post' = p₂ ++ [(self.name,
           { self with dependencies := MixedDeps.UnMixed inputs dependencies })]) ∧
    (∀ (list : List Target) (post : PostMap) (dep : String),
       finalizeLookup list post dep = none ↔
         ∀ t ∈ list ++ post.map Prod.snd, t.has_name dep = false) ∧
    (∀ (list : List Target) (post : PostMap) (dep : String) (pre : List Target)
       (t : Target) (suf : List Target),
       list ++ post.map Prod.snd = pre ++ t :: suf →
       (∀ u ∈ pre, u.has_name dep = false) → t.has_name dep = true →
       finalizeLookup list post dep =
         some (if t.name == dep then none else some t.name)) ∧
    ((Target.finalize_list [mkT "a" (.Mixed ["b"]), mkT "b" (.Mixed ["a"])]).map
        postSummary = .ok [("a", some (["b"], [])), ("b", some ([], ["a"]))]) := by
  refine ⟨?_, finalizeLookup_eq_none_iff, ?_, rfl⟩
  · intro fuel self list post path list' post' h
    obtain ⟨i, d, p₂, hsplit, _, _, hpost⟩ := finalizeF_ok_inversion h
    exact ⟨i, d, p₂, hsplit, hpost⟩
  · intro list post dep pre t suf hdecomp hpre hpt
    rw [finalizeLookup, hdecomp, find?_first_match _ pre t suf hpre hpt]
    rfl

/-- The fold over an empty dependency list reports no update. -/
theorem updateDeps_foldl_nil
    (upd : Target → List String × Except UpdateFailure Bool) (list : PostMap) :
    ([] : List String).foldl (updateDepStep upd list) ([], .ok false) =
      ([], .ok false) := rfl

/-- Probing an input whose metadata read fails panics at once. -/
theorem inputMTimes_head_fails {fs : String → FsMeta} {p : String}
    (rest : List String) (h : fs p = .ioError) :
    inputMTimes fs (p :: rest) = .error (.metadataUnwrap p) := by
  rw [inputMTimes, h]

theorem claim_C10_witness :
    (∃ inputs dependencies p₂,
      MixedDeps.split xSelf.dependencies (finalizeLookup [] []) =
        .ok (inputs, dependencies) ∧
      ([("x", mkT "x" (.UnMixed ["x"] []))] : PostMap) = p₂ ++ [("x",
        { xSelf with dependencies := MixedDeps.UnMixed inputs dependencies })]) ∧
    finalizeLookup [mkT "a" (.Mixed [])] [] "a" = some none :=
  ⟨claim_C10_lookup_scope.1 0 xSelf [] [] [] [] [("x", mkT "x" (.UnMixed ["x"] []))] rfl,
   claim_C10_lookup_scope.2.2.1 [mkT "a" (.Mixed [])] [] "a" []
     (mkT "a" (.Mixed [])) [] (by simp) (by simp) rfl⟩

/-! ## Claims C5 and C6 -/

/-- A dependency-free target with one input `"in"` that cannot be read. -/
def tIn : Target := ⟨"t", ["o"], .UnMixed ["in"] [], ["touch o"], defaultExtra⟩

/-- A filesystem on which reading the metadata of `"in"` fails with an I/O
error and every other path is absent. -/
def fsC5 : String → FsMeta := fun p => if p = "in" then .ioError else .missing

/-- A command runner on which every command exits with status 0. -/
def runOk : String → CmdOutcome := fun _ => .exit 0

/-- C5 is false on the code: a failing metadata read of an input path makes
`Target::update` panic (`fs::metadata(p).unwrap()`), terminating the process,
instead of surfacing an `UpdateErr::Io` error value. -/
theorem claim_C5_counterexample :
    Target.update 1 tIn [] fsC5 runOk =
      ([], .error (.panic (.metadataUnwrap "in"))) ∧
    Target.update 1 tIn [] fsC5 runOk ≠ ([], .error (.err .Io)) := by
  refine ⟨rfl, fun h => ?_⟩
  have h2 := (show Target.update 1 tIn [] fsC5 runOk =
    ([], .error (.panic (.metadataUnwrap "in"))) from rfl).symm.trans h
  simp at h2

/-- C5 amended: when update probes modification times, a metadata failure on
an input path panics — aborting, not returning an `Io` error value — while a
metadata failure on an output path is treated exactly like a missing output:
it silently forces the update and the commands run. -/
theorem claim_C5_metadata_behavior :
    (∀ (fuel : Nat) (self : Target) (list : PostMap) (fs : String → FsMeta)
       (run : String → CmdOutcome) (p : String) (rest : List String),
       self.dependencies = .UnMixed (p :: rest) [] → fs p = .ioError →
       Target.update (fuel + 1) self list fs run =
         ([], .error (.panic (.metadataUnwrap p)))) ∧
    (∀ (fuel : Nat) (self : Target) (list : PostMap) (fs : String → FsMeta)
       (run : String → CmdOutcome) (inputs : List String) (times : List Nat)
       (latest : Nat) (o : String),
       self.dependencies = .UnMixed inputs [] →
       inputMTimes fs inputs = .ok times → times.max? = some latest →
       o ∈ self.outputs → fs o = .ioError →
       Target.update (fuel + 1) self list fs run =
         ((runCommands run self.commands).1,
          (runCommands run self.commands).2.map (fun _ => true))) := by
  constructor
  · intro fuel self list fs run p rest hdeps hp
    exact update_probe_panic hdeps
      (updateDeps_foldl_nil (fun tgt => Target.update fuel tgt list fs run) list)
      (inputMTimes_head_fails rest hp)
  · intro fuel self list fs run inputs times latest o hdeps hin hmax ho hfso
    have hany : self.outputs.any (fun o =>
        match fs o with
        | .mtime t => decide (t < latest)
        | _ => true) = true := by
      rw [List.any_eq_true]
      refine ⟨o, ho, ?_⟩
      rw [hfso]
    have := update_probe_stale hdeps
      (updateDeps_foldl_nil (fun tgt => Target.update fuel tgt list fs run) list)
      hin hmax hany
    simpa using this

/-- A dependency-free target with readable input `"a"` and an output `"o"`
whose metadata read fails. -/
def tOut : Target := ⟨"t", ["o"], .UnMixed ["a"] [], ["c"], defaultExtra⟩

/-- A filesystem with `"a"` present and reading `"o"` failing. -/
def fsOut : String → FsMeta :=
  fun p => if p = "a" then .mtime 1 else if p = "o" then .ioError else .missing

theorem claim_C5_witness :
    Target.update 1 tIn [] fsC5 runOk =
      ([], .error (.panic (.metadataUnwrap "in"))) ∧
    Target.update 1 tOut [] fsOut runOk = (["c"], .ok true) :=
  ⟨claim_C5_metadata_behavior.1 0 tIn [] fsC5 runOk "in" [] rfl rfl,
   (claim_C5_metadata_behavior.2 0 tOut [] fsOut runOk ["a"] [1] 1 "o"
      rfl rfl rfl (by simp [tOut]) rfl).trans rfl⟩

/-- C6: under a forced update the commands run strictly in list order through
the shell; the loop stops at the first command exiting non-zero (surfaced as
a `Status` error carrying the code) or killed by a signal (surfaced as
`Signal`), and no later command of the target is attempted — the trace of a
forced update of a target with no inputs and no dependencies is exactly the
prefix up to and including the first failing command. -/
theorem claim_C6_command_execution :
    (∀ (run : String → CmdOutcome) (pre : List String) (c : String)
       (post : List String) (k : Int),
       (∀ c' ∈ pre, run c' = .exit 0) → run c = .exit k → k ≠ 0 →
       runCommands run (pre ++ c :: post) =
         (pre ++ [c], .error (.err (.Status k)))) ∧
    (∀ (run : String → CmdOutcome) (pre : List String) (c : String)
       (post : List String),
       (∀ c' ∈ pre, run c' = .exit 0) → run c = .signal →
       runCommands run (pre ++ c :: post) = (pre ++ [c], .error (.err .Signal))) ∧
    (∀ (fuel : Nat) (self : Target) (list : PostMap) (fs : String → FsMeta)
       (run : String → CmdOutcome),
       self.dependencies = .UnMixed [] [] →
       Target.update (fuel + 1) self list fs run =
         ((runCommands run self.commands).1,
          (runCommands run self.commands).2.map (fun _ => true))) := by
  refine ⟨runCommands_status, runCommands_signal, ?_⟩
  intro fuel self list fs run hdeps
  have := update_probe_no_inputs hdeps
    (updateDeps_foldl_nil (fun tgt => Target.update fuel tgt list fs run) list) rfl rfl
  simpa using this

/-- An always-forced target whose first command fails. -/
def tFalse : Target := ⟨"t", [], .UnMixed [] [], ["false", "never"], defaultExtra⟩

/-- A command runner on which `"false"` exits 1, `"kill"` dies by signal and
everything else exits 0. -/
def runF : String → CmdOutcome :=
  fun c => if c = "false" then .exit 1 else if c = "kill" then .signal else .exit 0

theorem claim_C6_witness :
    Target.update 1 tFalse [] fsC5 runF = (["false"], .error (.err (.Status 1))) ∧
    runCommands runF (["ok"] ++ "false" :: ["never"]) =
      (["ok", "false"], .error (.err (.Status 1))) ∧
    runCommands runF (["ok"] ++ "kill" :: ["never"]) =
      (["ok", "kill"], .error (.err .Signal)) :=
  ⟨(claim_C6_command_execution.2.2 0 tFalse [] fsC5 runF rfl).trans rfl,
   claim_C6_command_execution.1 runF ["ok"] "false" ["never"] 1
     (by intro c' hc'; simp at hc'; simp [hc', runF]) rfl (by decide),
   claim_C6_command_execution.2.1 runF ["ok"] "kill" ["never"]
     (by intro c' hc'; simp at hc'; simp [hc', runF]) rfl⟩

/-! ## Claims C4 and C3 -/

/-- C4: `update` recursively updates each resolved dependency in list order,
ORs whether any reported an update, forces this target's own update whenever
one did — regardless of this target's own input and output timestamps, whose
probe is short-circuited away — and propagates the first dependency error
immediately: the error conclusion holds for every tail of remaining
dependencies, which are therefore never attempted. -/
theorem claim_C4_dependency_updates :
    (∀ (fuel : Nat) (self : Target) (list : PostMap) (fs : String → FsMeta)
       (run : String → CmdOutcome) (inputs deps : List String)
       (trs : String → List String) (bs : String → Bool),
       self.dependencies = .UnMixed inputs deps →
       (∀ d ∈ deps, ∃ u, lookupPost list d = some u ∧
          Target.update fuel u list fs run = (trs d, .ok (bs d))) →
       deps.any bs = true →
       Target.update (fuel + 1) self list fs run =
         ((deps.map trs).flatten ++ (runCommands run self.commands).1,
          (runCommands run self.commands).2.map (fun _ => true))) ∧
    (∀ (fuel : Nat) (self : Target) (list : PostMap) (fs : String → FsMeta)
       (run : String → CmdOutcome) (inputs : List String)
       (pre : List String) (d : String) (rest : List String)
       (trs : String → List String) (bs : String → Bool)
       (u : Target) (tr₁ : List String) (e : UpdateFailure),
       self.dependencies = .UnMixed inputs (pre ++ d :: rest) →
       (∀ d' ∈ pre, ∃ u', lookupPost list d' = some u' ∧
          Target.update fuel u' list fs run = (trs d', .ok (bs d'))) →
       lookupPost list d = some u →
       Target.update fuel u list fs run = (tr₁, .error e) →
       Target.update (fuel + 1) self list fs run =
         ((pre.map trs).flatten ++ tr₁, .error e)) := by
  constructor
  · intro fuel self list fs run inputs deps trs bs hdeps hok hany
    have hfold := updateDeps_foldl_all_ok
      (fun tgt => Target.update fuel tgt list fs run) list trs bs deps hok [] false
    rw [hany] at hfold
    simp only [List.nil_append, Bool.false_or] at hfold
    exact update_dep_forced hdeps hfold
  · intro fuel self list fs run inputs pre d rest trs bs u tr₁ e hdeps hok hu hupd
    have hpre := updateDeps_foldl_all_ok
      (fun tgt => Target.update fuel tgt list fs run) list trs bs pre hok [] false
    simp only [List.nil_append, Bool.false_or] at hpre
    have hstep : updateDepStep (fun tgt => Target.update fuel tgt list fs run)
        list ((pre.map trs).flatten, .ok (pre.any bs)) d =
        ((pre.map trs).flatten ++ tr₁, .error e) := by
      rw [updateDepStep, hu]
      simp [hupd, Except.map]
    have hfold : (pre ++ d :: rest).foldl
        (updateDepStep (fun tgt => Target.update fuel tgt list fs run) list)
        ([], .ok false) = ((pre.map trs).flatten ++ tr₁, .error e) := by
      rw [List.foldl_append, hpre, List.foldl_cons, hstep,
        updateDeps_foldl_error (fun tgt => Target.update fuel tgt list fs run) list rest]
    exact update_dep_error hdeps hfold

/-- The staleness test on the outputs, spelled out: some output is not a
readable file, or is strictly older than the newest input time. -/
theorem outputs_stale_iff (fs : String → FsMeta) (outputs : List String)
    (latest : Nat) :
    (outputs.any (fun o =>
        match fs o with
        | .mtime t => decide (t < latest)
        | _ => true) = true) ↔
      ∃ o ∈ outputs, (∀ t, fs o ≠ .mtime t) ∨ ∃ t, fs o = .mtime t ∧ t < latest := by
  rw [List.any_eq_true]
  constructor
  · rintro ⟨o, ho, hm⟩
    refine ⟨o, ho, ?_⟩
    cases hfo : fs o with
    | mtime t =>
      right
      rw [hfo] at hm
      exact ⟨t, rfl, of_decide_eq_true hm⟩
    | missing =>
      left
      intro t h
      exact FsMeta.noConfusion h
    | ioError =>
      left
      intro t h
      exact FsMeta.noConfusion h
  · rintro ⟨o, ho, hcase⟩
    refine ⟨o, ho, ?_⟩
    cases hfo : fs o with
    | mtime t =>
      rcases hcase with h | ⟨t', ht', hlt⟩
      · exact absurd hfo (h t)
      · rw [hfo] at ht'
        have heq := FsMeta.mtime.inj ht'
        subst heq
        exact decide_eq_true hlt
    | missing => rfl
    | ioError => rfl

/-- C3: when every dependency update reports no update, staleness is decided
by the timestamp probe alone: with an empty resolved input list the target is
treated as forced and its commands run; otherwise it is forced exactly when
some output path is not a readable file or some existing output's
modification time is strictly earlier than the newest input time — in
particular an output whose time equals the newest input time does not force —
and when not forced the call returns `Ok(false)` having attempted no
command. -/
theorem claim_C3_staleness_rule :
    ∀ (fuel : Nat) (self : Target) (list : PostMap) (fs : String → FsMeta)
      (run : String → CmdOutcome) (inputs deps : List String),
      self.dependencies = .UnMixed inputs deps →
      (∀ d ∈ deps, ∃ u, lookupPost list d = some u ∧
         Target.update fuel u list fs run = ([], .ok false)) →
      ((inputs = [] →
         Target.update (fuel + 1) self list fs run =
           ((runCommands run self.commands).1,
            (runCommands run self.commands).2.map (fun _ => true))) ∧
       (∀ (times : List Nat) (latest : Nat),
         inputMTimes fs inputs = .ok times → times.max? = some latest →
         (((self.outputs.any (fun o =>
              match fs o with
              | .mtime t => decide (t < latest)
              | _ => true)) = true ↔
            ∃ o ∈ self.outputs,
              (∀ t, fs o ≠ .mtime t) ∨ ∃ t, fs o = .mtime t ∧ t < latest) ∧
          (self.outputs.any (fun o =>
              match fs o with
              | .mtime t => decide (t < latest)
              | _ => true) = true →
            Target.update (fuel + 1) self list fs run =
              ((runCommands run self.commands).1,
               (runCommands run self.commands).2.map (fun _ => true))) ∧
          (self.outputs.any (fun o =>
              match fs o with
              | .mtime t => decide (t < latest)
              | _ => true) = false →
            Target.update (fuel + 1) self list fs run = ([], .ok false))))) := by
  intro fuel self list fs run inputs deps hdeps hok
  have hfold := updateDeps_foldl_all_ok
    (fun tgt => Target.update fuel tgt list fs run) list (fun _ => [])
    (fun _ => false) deps
    (by intro d hd; obtain ⟨u, hu, hupd⟩ := hok d hd; exact ⟨u, hu, hupd⟩)
    [] false
  simp only [List.nil_append, Bool.false_or, Bool.or_false] at hfold
  have hflat : (deps.map (fun _ => ([] : List String))).flatten = [] := by
    induction deps with
    | nil => rfl
    | cons d deps ih => simp [ih]
  have hanyf : deps.any (fun _ => false) = false := by
    induction deps with
    | nil => rfl
    | cons d deps ih => simp [ih]
  rw [hflat, hanyf] at hfold
  constructor
  · intro hins
    subst hins
    have := update_probe_no_inputs hdeps hfold rfl rfl
    simpa using this
  · intro times latest hin hmax
    refine ⟨outputs_stale_iff fs self.outputs latest, ?_, ?_⟩
    · intro hany
      have := update_probe_stale hdeps hfold hin hmax hany
      simpa using this
    · intro hany
      exact update_probe_fresh hdeps hfold hin hmax hany

/-! ### Concrete scenarios for C4 and C3 -/

/-- An always-stale helper target (no inputs, no dependencies). -/
def t1W : Target := ⟨"t1", [], .UnMixed [] [], [], defaultExtra⟩

/-- A target depending on `t1` whose own outputs are fresh. -/
def t2W : Target := ⟨"t2", ["b"], .UnMixed ["a"] ["t1"], [], defaultExtra⟩

/-- The map holding `t1` and `t2`. -/
def mapW : PostMap := [("t1", t1W), ("t2", t2W)]

/-- A filesystem on which `t2`'s output `b` is newer than its input `a`. -/
def fsW : String → FsMeta :=
  fun p => if p = "a" then .mtime 1 else if p = "b" then .mtime 2 else .missing

/-- A target whose single command fails. -/
def tErrW : Target := ⟨"e", [], .UnMixed [] [], ["false"], defaultExtra⟩

/-- A target depending first on the failing `e`, then on a name `zz` that is
not even in the map — never reached. -/
def t3W : Target := ⟨"t3", [], .UnMixed [] ["e", "zz"], [], defaultExtra⟩

/-- The map holding `e` and `t3`. -/
def mapE : PostMap := [("e", tErrW), ("t3", t3W)]

theorem claim_C4_witness :
    Target.update 2 t2W mapW fsW runOk = ([], .ok true) ∧
    Target.update 2 t3W mapE fsW runF = (["false"], .error (.err (.Status 1))) :=
  ⟨(claim_C4_dependency_updates.1 1 t2W mapW fsW runOk ["a"] ["t1"]
      (fun _ => []) (fun _ => true) rfl
      (by intro d hd; simp at hd; subst hd; exact ⟨t1W, rfl, rfl⟩) rfl).trans rfl,
   (claim_C4_dependency_updates.2 1 t3W mapE fsW runF [] [] "e" ["zz"]
      (fun _ => []) (fun _ => false) tErrW ["false"] (.err (.Status 1)) rfl
      (by simp) rfl rfl).trans rfl⟩

/-- The tie scenario: input and output modified at the same instant. -/
def tTie : Target := ⟨"t", ["out5"], .UnMixed ["tie"] [], ["c"], defaultExtra⟩

/-- A filesystem in which input `tie` and output `out5` share time 5. -/
def fsTie : String → FsMeta :=
  fun p => if p = "tie" then .mtime 5 else if p = "out5" then .mtime 5 else .missing

theorem claim_C3_witness :
    Target.update 1 tTie [] fsTie runOk = ([], .ok false) :=
  ((claim_C3_staleness_rule 0 tTie [] fsTie runOk ["tie"] [] rfl (by simp)).2
    [5] 5 rfl rfl).2.2 rfl

/-! ## Claim C9 -/

/-- C9 is false on the code: `t2`'s outputs are all strictly newer than its
inputs, its map was produced by `finalize_list`, and a first `update`
succeeds returning `true` — yet a second call on the unchanged filesystem
(`update` is deterministic in the modelled environment, so the calls
coincide) again returns `true`, not `false`: its dependency `t1` has no
inputs, is therefore always stale, and re-forces `t2` on every call. -/
theorem claim_C9_counterexample :
    Target.finalize_list [t2W, t1W] = .ok mapW ∧
    fsW "a" = .mtime 1 ∧ fsW "b" = .mtime 2 ∧
    Target.update 2 t2W mapW fsW runOk = ([], .ok true) ∧
    Target.update 2 t2W mapW fsW runOk ≠ ([], .ok false) := by
  refine ⟨rfl, rfl, rfl, rfl, fun h => ?_⟩
  have h2 := (show Target.update 2 t2W mapW fsW runOk = ([], .ok true)
    from rfl).symm.trans h
  simp at h2

/-- The dependency fold when every dependency reports no update with no
commands attempted. -/
theorem updateDeps_foldl_all_false (fuel : Nat) (list : PostMap)
    (fs : String → FsMeta) (run : String → CmdOutcome) (deps : List String)
    (hok : ∀ d ∈ deps, ∃ u, lookupPost list d = some u ∧
       Target.update fuel u list fs run = ([], .ok false)) :
    deps.foldl (updateDepStep (fun tgt => Target.update fuel tgt list fs run) list)
      ([], .ok false) = ([], .ok false) := by
  have hfold := updateDeps_foldl_all_ok
    (fun tgt => Target.update fuel tgt list fs run) list (fun _ => [])
    (fun _ => false) deps hok [] false
  have hflat : (deps.map (fun _ => ([] : List String))).flatten = [] := by
    induction deps with
    | nil => rfl
    | cons d deps ih => simp [ih]
  have hanyf : deps.any (fun _ => false) = false := by
    induction deps with
    | nil => rfl
    | cons d deps ih => simp [ih]
  rw [hflat, hanyf] at hfold
  simpa using hfold

/-- Every entry of the map is fresh: resolved dependencies, a nonempty and
fully readable input list, every output present and no older than the newest
input, and each dependency name bound in the map with strictly smaller
rank (an acyclicity certificate for the dependency graph). -/
def AllFresh (list : PostMap) (fs : String → FsMeta) (rank : String → Nat) : Prop :=
  ∀ e ∈ list, ∃ inputs deps times latest,
    e.2.dependencies = MixedDeps.UnMixed inputs deps ∧
    inputMTimes fs inputs = .ok times ∧
    times.max? = some latest ∧
    (∀ o ∈ e.2.outputs, ∃ so, fs o = .mtime so ∧ latest ≤ so) ∧
    (∀ d ∈ deps, (∃ u, lookupPost list d = some u) ∧ rank d < rank e.1)

/-- C9 amended: repeated calls converge to `false` only when the whole
dependency closure is fresh — on an acyclic map every entry of which has at
least one input, readable inputs, and outputs at least as new as its newest
input, `update` returns `Ok(false)` and attempts no command; an inputless
(always-stale) dependency instead re-forces its dependents on every call, so
the spec's unqualified idempotence fails. -/
theorem claim_C9_fresh_closure_false :
    ∀ (fuel : Nat) (list : PostMap) (fs : String → FsMeta)
      (run : String → CmdOutcome) (rank : String → Nat),
      AllFresh list fs rank →
      ∀ (k : String) (u : Target), (k, u) ∈ list → rank k < fuel →
      Target.update fuel u list fs run = ([], .ok false) := by
  intro fuel
  induction fuel with
  | zero =>
    intro list fs run rank hf k u hm hr
    exact absurd hr (Nat.not_lt_zero _)
  | succ fuel ih =>
    intro list fs run rank hf k u hm hr
    obtain ⟨inputs, deps, times, latest, hdeps, hin, hmax, houts, hds⟩ :=
      hf (k, u) hm
    have hok : ∀ d ∈ deps, ∃ w, lookupPost list d = some w ∧
        Target.update fuel w list fs run = ([], .ok false) := by
      intro d hd
      obtain ⟨⟨w, hw⟩, hrank⟩ := hds d hd
      have hrank2 : rank d < rank k := hrank
      exact ⟨w, hw, ih list fs run rank hf d w (lookupPost_mem hw) (by omega)⟩
    have hfold := updateDeps_foldl_all_false fuel list fs run deps hok
    have hany : u.outputs.any (fun o =>
        match fs o with
        | .mtime t => decide (t < latest)
        | _ => true) = false := by
      rw [List.any_eq_false]
      intro o ho
      obtain ⟨so, hfso, hle⟩ := houts o ho
      rw [hfso]
      simp
      omega
    exact update_probe_fresh hdeps hfold hin hmax hany

/-- A fresh chain for the C9 witness: `u2` depends on `u1`, both with inputs
older than their outputs. -/
def u1F : Target := ⟨"u1", ["o1"], .UnMixed ["i1"] [], [], defaultExtra⟩

/-- The dependent end of the fresh chain. -/
def u2F : Target := ⟨"u2", ["o2"], .UnMixed ["i2"] ["u1"], [], defaultExtra⟩

/-- The map holding the fresh chain. -/
def mapF : PostMap := [("u1", u1F), ("u2", u2F)]

/-- A filesystem on which both targets of the chain are fresh. -/
def fsF : String → FsMeta := fun p =>
  if p = "i1" then .mtime 1 else if p = "o1" then .mtime 2
  else if p = "i2" then .mtime 3 else if p = "o2" then .mtime 3 else .missing

/-- A rank function certifying the chain acyclic. -/
def rankF : String → Nat := fun n => if n = "u1" then 0 else 1

theorem claim_C9_witness :
    Target.update 2 u2F mapF fsF runOk = ([], .ok false) := by
  refine claim_C9_fresh_closure_false 2 mapF fsF runOk rankF ?_ "u2" u2F
    (by simp [mapF]) (by simp [rankF])
  intro e he
  simp only [mapF, List.mem_cons, List.mem_singleton] at he
  rcases he with rfl | rfl | he
  · exact ⟨["i1"], [], [1], 1, rfl, rfl, rfl,
      by intro o ho; simp [u1F] at ho; subst ho; exact ⟨2, rfl, by omega⟩,
      by simp⟩
  · refine ⟨["i2"], ["u1"], [3], 3, rfl, rfl, rfl,
      by intro o ho; simp [u2F] at ho; subst ho; exact ⟨3, rfl, by omega⟩, ?_⟩
    intro d hd
    simp at hd
    subst hd
    exact ⟨⟨u1F, rfl⟩, by simp [rankF]⟩
  · exact absurd he (List.not_mem_nil e)

/-! ## Claim C2: finalization succeeds on well-formed acyclic sets

The induction is over the fuel of `finalizeF`.  The invariant tracks a fixed
universe `U` of names (the names of the original raw targets): at any point
the names of the pending pool, the target in hand, the finalized keys and the
in-progress path together form a permutation of `U`; all pending targets use
the default exact-name capability; `UnMixed` dependency names land in `U`;
and a rank function decreasing along raw dependency references certifies
acyclicity. -/

/-- The statement of the main finalization-success lemma at a given fuel. -/
def FinalizeOk (rank : String → Nat) (U : List String) (fuel : Nat) : Prop :=
  ∀ (self : Target) (list : List Target) (post : PostMap) (path : List String),
    ((list.map Target.name ++ self.name :: (post.map Prod.fst ++ path)).Perm U) →
    ExactExtra self →
    (∀ t ∈ list, ExactExtra t) →
    (∀ e ∈ post, ExactExtra e.2 ∧ e.2.name = e.1) →
    (∀ d ∈ unmixedDepNames self, d ∈ U) →
    (∀ t ∈ list, ∀ d ∈ unmixedDepNames t, d ∈ U) →
    (∀ d ∈ rawDepNames self, d ∈ U → rank d < rank self.name) →
    (∀ t ∈ list, ∀ d ∈ rawDepNames t, d ∈ U → rank d < rank t.name) →
    (∀ p ∈ path, rank self.name < rank p) →
    list.length + 1 ≤ fuel →
    ∃ (list' : List Target) (post' : PostMap),
      finalizeF fuel self list post path = .ok (list', post') ∧
      list'.Sublist list ∧
      ((list'.map Target.name ++ post'.map Prod.fst).Perm
        (self.name :: (list.map Target.name ++ post.map Prod.fst))) ∧
      (∀ e ∈ post', ExactExtra e.2 ∧ e.2.name = e.1)

/-- Under the invariant, the split of the target in hand succeeds, and every
resolved dependency name is the name of a pending or finalized target and
occurs among the target's raw dependency names. -/
theorem split_resolves {rank : String → Nat} {U : List String} {self : Target}
    {list : List Target} {post : PostMap} {path : List String}
    (hU : (list.map Target.name ++ self.name :: (post.map Prod.fst ++ path)).Perm U)
    (hxl : ∀ t ∈ list, ExactExtra t)
    (hxp : ∀ e ∈ post, ExactExtra e.2 ∧ e.2.name = e.1)
    (hrs : ∀ d ∈ unmixedDepNames self, d ∈ U)
    (has : ∀ d ∈ rawDepNames self, d ∈ U → rank d < rank self.name)
    (hpath : ∀ p ∈ path, rank self.name < rank p) :
    ∃ inputs dependencies,
      MixedDeps.split self.dependencies (finalizeLookup list post) =
        .ok (inputs, dependencies) ∧
      (∀ d ∈ dependencies, d ∈ list.map Target.name ++ post.map Prod.fst) ∧
      (∀ d ∈ dependencies, d ∈ rawDepNames self) := by
  cases hd : self.dependencies with
  | Mixed l =>
    refine ⟨_, _, split_mixed_eq (finalizeLookup list post) l, ?_, ?_⟩
    · intro d hdm
      obtain ⟨d₀, hd₀, hpred⟩ := List.mem_filterMap.mp hdm
      obtain ⟨o, ho, hgd⟩ := Option.map_eq_some'.mp hpred
      obtain ⟨hnone, hmem⟩ := finalizeLookup_some_of_wf hxl hxp ho
      subst hnone
      have hdd : d₀ = d := by simpa using hgd
      exact hdd ▸ hmem
    · intro d hdm
      obtain ⟨d₀, hd₀, hpred⟩ := List.mem_filterMap.mp hdm
      obtain ⟨o, ho, hgd⟩ := Option.map_eq_some'.mp hpred
      obtain ⟨hnone, _⟩ := finalizeLookup_some_of_wf hxl hxp ho
      subst hnone
      have hdd : d₀ = d := by simpa using hgd
      subst hdd
      rw [rawDepNames, hd]
      exact hd₀
  | UnMixed ins ds =>
    have hdsu : ds = unmixedDepNames self := by rw [unmixedDepNames, hd]
    have hdsr : ds = rawDepNames self := by rw [rawDepNames, hd]
    have hmem : ∀ d ∈ ds, d ∈ list.map Target.name ++ post.map Prod.fst := by
      intro d hdm
      have hdU : d ∈ U := hrs d (hdsu ▸ hdm)
      have hd4 : d ∈ list.map Target.name ++
          self.name :: (post.map Prod.fst ++ path) := hU.mem_iff.mpr hdU
      have hrank : rank d < rank self.name := has d (hdsr ▸ hdm) hdU
      rcases List.mem_append.mp hd4 with h | h
      · exact List.mem_append.mpr (.inl h)
      · rcases List.mem_cons.mp h with h | h
        · exact absurd hrank (by rw [h]; exact lt_irrefl _)
        · rcases List.mem_append.mp h with h | h
          · exact List.mem_append.mpr (.inr h)
          · have := hpath d h
            omega
    refine ⟨ins, ds, ?_, hmem, fun d hdm => hdsr ▸ hdm⟩
    exact split_unmixed_all_found _ ins ds
      (fun d hdm => finalizeLookup_found_of_wf hxl hxp (hmem d hdm))

theorem finalizeStep_not_path
    {fin : Target → List Target → PostMap → Except Panic (List Target × PostMap)}
    {path : List String} {dep : String} {list : List Target} {post : PostMap}
    (hc : path.contains dep = false) :
    finalizeStep fin path (list, post) dep =
      match removeFirst (fun t => t.name == dep) list with
      | some (tgt, rest) => fin tgt rest post
      | none => .ok (list, post) := by
  rw [finalizeStep]
  have hnp : dep ∉ path := by simpa using hc
  simp [hnp]

/-- Under the invariant, the dependency loop of `finalizeF` succeeds,
conserving the pending-plus-finalized name pool as a multiset. -/
theorem finalizeLoop_complete (fuel : Nat) (rank : String → Nat) (U : List String)
    (hUnd : U.Nodup) (IH : FinalizeOk rank U fuel) :
    ∀ (deps : List String) (list : List Target) (post : PostMap)
      (path : List String),
      ((list.map Target.name ++ post.map Prod.fst ++ path).Perm U) →
      (∀ t ∈ list, ExactExtra t) →
      (∀ e ∈ post, ExactExtra e.2 ∧ e.2.name = e.1) →
      (∀ t ∈ list, ∀ d ∈ unmixedDepNames t, d ∈ U) →
      (∀ t ∈ list, ∀ d ∈ rawDepNames t, d ∈ U → rank d < rank t.name) →
      (∀ d ∈ deps, d ∈ list.map Target.name ++ post.map Prod.fst) →
      (∀ d ∈ deps, ∀ p ∈ path, rank d < rank p) →
      list.length ≤ fuel →
      ∃ (list' : List Target) (post' : PostMap),
        deps.foldlM
          (finalizeStep (fun tgt rest post => finalizeF fuel tgt rest post path)
            path)
          (list, post) = .ok (list', post') ∧
        list'.Sublist list ∧
        ((list'.map Target.name ++ post'.map Prod.fst).Perm
          (list.map Target.name ++ post.map Prod.fst)) ∧
        (∀ e ∈ post', ExactExtra e.2 ∧ e.2.name = e.1) := by
  intro deps
  induction deps with
  | nil =>
    intro list post path hU hxl hxp hul hal hdm hdr hfuel
    exact ⟨list, post, rfl, List.Sublist.refl list, List.Perm.refl _, hxp⟩
  | cons d rest ihd =>
    intro list post path hU hxl hxp hul hal hdm hdr hfuel
    have hnodupL : (list.map Target.name ++ post.map Prod.fst ++ path).Nodup :=
      hU.nodup_iff.mpr hUnd
    have hd_pool : d ∈ list.map Target.name ++ post.map Prod.fst :=
      hdm d (List.mem_cons_self d rest)
    have hd_not_path : d ∉ path := by
      intro hdp
      rw [List.nodup_append] at hnodupL
      exact hnodupL.2.2 hd_pool hdp
    have hcont : path.contains d = false := by simpa using hd_not_path
    rcases List.mem_append.mp hd_pool with hdL | hdP
    · obtain ⟨tgt0, htgt0, hname0⟩ := List.mem_map.mp hdL
      have hremS : removeFirst (fun t => t.name == d) list ≠ none := by
        intro hnone
        rw [removeFirst_eq_none_iff] at hnone
        have h0 := hnone tgt0 htgt0
        rw [hname0] at h0
        simp at h0
      obtain ⟨⟨tgt, rest₁⟩, hrem⟩ := Option.ne_none_iff_exists'.mp hremS
      obtain ⟨hp_tgt, s, t', hdecomp, hrest₁, hs⟩ :=
        removeFirst_eq_some _ list rest₁ tgt hrem
      have htgt_name : tgt.name = d := by simpa using hp_tgt
      have htgt_mem : tgt ∈ list := by rw [hdecomp]; simp
      have hrest₁_sub : rest₁.Sublist list := by
        rw [hdecomp, hrest₁]
        exact List.Sublist.append_left (List.sublist_cons_self tgt t') s
      have hlen : list.length = rest₁.length + 1 := by
        rw [hdecomp, hrest₁]
        simp [List.length_append]
        omega
      have hnames : (list.map Target.name).Perm
          (tgt.name :: rest₁.map Target.name) := by
        rw [hdecomp, hrest₁]
        simp only [List.map_append, List.map_cons]
        exact List.perm_middle
      have hmn := Multiset.coe_eq_coe.mpr hnames
      have hU1 : (rest₁.map Target.name ++
          tgt.name :: (post.map Prod.fst ++ path)).Perm U := by
        refine List.Perm.trans ?_ hU
        rw [← Multiset.coe_eq_coe]
        simp only [← Multiset.coe_add, ← Multiset.cons_coe,
          ← Multiset.singleton_add] at hmn ⊢
        rw [hmn]
        abel
      have hfin := IH tgt rest₁ post path hU1 (hxl tgt htgt_mem)
        (fun t ht => hxl t (hrest₁_sub.subset ht)) hxp
        (hul tgt htgt_mem) (fun t ht => hul t (hrest₁_sub.subset ht))
        (hal tgt htgt_mem) (fun t ht => hal t (hrest₁_sub.subset ht))
        (by
          intro p hp
          rw [htgt_name]
          exact hdr d (List.mem_cons_self d rest) p hp)
        (by omega)
      obtain ⟨l₂, p₂, hfeq, hsub₂, hperm₂, hwf₂⟩ := hfin
      have hstep : finalizeStep
          (fun tgt rest post => finalizeF fuel tgt rest post path) path
          (list, post) d = .ok (l₂, p₂) := by
        rw [finalizeStep_not_path hcont, hrem]
        exact hfeq
      have hpool₂ : (l₂.map Target.name ++ p₂.map Prod.fst).Perm
          (list.map Target.name ++ post.map Prod.fst) := by
        refine hperm₂.trans ?_
        rw [← Multiset.coe_eq_coe]
        simp only [← Multiset.coe_add, ← Multiset.cons_coe,
          ← Multiset.singleton_add] at hmn ⊢
        rw [hmn]
        abel
      have hloop := ihd l₂ p₂ path
        (List.Perm.trans (hpool₂.append_right path) hU)
        (fun t ht => hxl t (hrest₁_sub.subset (hsub₂.subset ht)))
        hwf₂
        (fun t ht => hul t (hrest₁_sub.subset (hsub₂.subset ht)))
        (fun t ht => hal t (hrest₁_sub.subset (hsub₂.subset ht)))
        (fun d' hd' => hpool₂.mem_iff.mpr (hdm d' (List.mem_cons_of_mem d hd')))
        (fun d' hd' p hp => hdr d' (List.mem_cons_of_mem d hd') p hp)
        (by
          have h1 := hsub₂.length_le
          have h2 := hrest₁_sub.length_le
          omega)
      obtain ⟨l₃, p₃, hfeq₃, hsub₃, hperm₃, hwf₃⟩ := hloop
      refine ⟨l₃, p₃, ?_, hsub₃.trans (hsub₂.trans hrest₁_sub),
        hperm₃.trans hpool₂, hwf₃⟩
      rw [List.foldlM_cons, hstep]
      exact hfeq₃
    · have hdisj : (list.map Target.name).Disjoint (post.map Prod.fst) := by
        have h1 : (list.map Target.name ++ post.map Prod.fst).Nodup :=
          hnodupL.of_append_left
        rw [List.nodup_append] at h1
        exact h1.2.2
      have hremN : removeFirst (fun t => t.name == d) list = none := by
        rw [removeFirst_eq_none_iff]
        intro t ht
        by_contra hne
        have htn : t.name = d := by simpa using hne
        exact hdisj (htn ▸ List.mem_map_of_mem Target.name ht) hdP
      have hstep : finalizeStep
          (fun tgt rest post => finalizeF fuel tgt rest post path) path
          (list, post) d = .ok (list, post) := by
        rw [finalizeStep_not_path hcont, hremN]
      have hloop := ihd list post path hU hxl hxp hul hal
        (fun d' hd' => hdm d' (List.mem_cons_of_mem d hd'))
        (fun d' hd' p hp => hdr d' (List.mem_cons_of_mem d hd') p hp) hfuel
      obtain ⟨l₃, p₃, hfeq₃, hsub₃, hperm₃, hwf₃⟩ := hloop
      refine ⟨l₃, p₃, ?_, hsub₃, hperm₃, hwf₃⟩
      rw [List.foldlM_cons, hstep]
      exact hfeq₃

/-- The main finalization-success lemma: with exact-name capabilities, a
duplicate-free name universe, resolvable `UnMixed` dependency names and a
rank certificate of acyclicity, `finalizeF` succeeds whenever the fuel
exceeds the pending-pool size, consuming a sub-pool of pending targets and
emitting exactly the consumed names plus its own. -/
theorem finalizeF_complete :
    ∀ (fuel : Nat) (rank : String → Nat) (U : List String),
      U.Nodup → FinalizeOk rank U fuel := by
  intro fuel
  induction fuel with
  | zero =>
    intro rank U hUnd self list post path _ _ _ _ _ _ _ _ _ hfuel
    omega
  | succ fuel ih =>
    intro rank U hUnd self list post path hU hxs hxl hxp hrs hrl has hal hpath hfuel
    obtain ⟨inputs, dependencies, hsplit, hdmem, hdraw⟩ :=
      split_resolves hU hxl hxp hrs has hpath
    have hdU : ∀ d', d' ∈ list.map Target.name ++ post.map Prod.fst → d' ∈ U := by
      intro d' hd'
      refine hU.subset ?_
      rcases List.mem_append.mp hd' with h | h
      · exact List.mem_append.mpr (.inl h)
      · exact List.mem_append.mpr
          (.inr (List.mem_cons_of_mem _ (List.mem_append.mpr (.inl h))))
    have hUloop : (list.map Target.name ++ post.map Prod.fst ++
        (self.name :: path)).Perm U := by
      refine List.Perm.trans ?_ hU
      rw [← Multiset.coe_eq_coe]
      simp only [← Multiset.coe_add, ← Multiset.cons_coe, ← Multiset.singleton_add]
      abel
    have hdr : ∀ d ∈ dependencies, ∀ p ∈ self.name :: path, rank d < rank p := by
      intro d hd p hp
      have hrk : rank d < rank self.name :=
        has d (hdraw d hd) (hdU d (hdmem d hd))
      rcases List.mem_cons.mp hp with hps | hp
      · rw [hps]
        exact hrk
      · exact lt_trans hrk (hpath p hp)
    obtain ⟨list', p₂, hfold, hsub, hperm, hwf⟩ :=
      finalizeLoop_complete fuel rank U hUnd (ih rank U hUnd)
        dependencies list post (self.name :: path) hUloop hxl hxp hrl hal hdmem
        hdr (by omega)
    have hnodupL : (list.map Target.name ++
        self.name :: (post.map Prod.fst ++ path)).Nodup :=
      hU.nodup_iff.mpr hUnd
    have hself_not : self.name ∉ list.map Target.name ++ post.map Prod.fst := by
      intro hmem
      rcases List.mem_append.mp hmem with h | h
      · rw [List.nodup_append] at hnodupL
        exact hnodupL.2.2 h (List.mem_cons_self _ _)
      · have h2 : (self.name :: (post.map Prod.fst ++ path)).Nodup :=
          (List.nodup_append.mp hnodupL).2.1
        rw [List.nodup_cons] at h2
        exact h2.1 (List.mem_append.mpr (.inl h))
    have hlook : lookupPost p₂ self.name = none := by
      rw [lookupPost_eq_none_iff]
      intro hmem
      exact hself_not
        (hperm.mem_iff.mp (List.mem_append.mpr (.inr hmem)))
    refine ⟨list', p₂ ++ [(self.name,
      { self with dependencies := MixedDeps.UnMixed inputs dependencies })],
      ?_, hsub, ?_, ?_⟩
    · simp only [finalizeF, hsplit, hfold, hlook]
    · rw [List.map_append]
      rw [← Multiset.coe_eq_coe]
      have hpm := Multiset.coe_eq_coe.mpr hperm
      simp only [List.map_cons, List.map_nil, ← Multiset.coe_add,
        ← Multiset.cons_coe, ← Multiset.singleton_add, Multiset.coe_nil]
        at hpm ⊢
      rw [← add_assoc, hpm]
      abel
    · intro e he
      rcases List.mem_append.mp he with he | he
      · exact hwf e he
      · rw [List.mem_singleton] at he
        subst he
        exact ⟨hxs, rfl⟩

/-- Success of the `finalize_list` loop: under the same invariants, every
pending target ends up in the map, keyed by its name. -/
theorem finalizeListF_complete :
    ∀ (fuel : Nat) (rank : String → Nat) (U : List String),
      U.Nodup →
      ∀ (list : List Target) (post : PostMap),
        ((list.map Target.name ++ post.map Prod.fst).Perm U) →
        (∀ t ∈ list, ExactExtra t) →
        (∀ e ∈ post, ExactExtra e.2 ∧ e.2.name = e.1) →
        (∀ t ∈ list, ∀ d ∈ unmixedDepNames t, d ∈ U) →
        (∀ t ∈ list, ∀ d ∈ rawDepNames t, d ∈ U → rank d < rank t.name) →
        list.length ≤ fuel →
        ∃ m, finalizeListF fuel list post = .ok m ∧
          ((m.map Prod.fst).Perm
            (list.map Target.name ++ post.map Prod.fst)) := by
  intro fuel
  induction fuel with
  | zero =>
    intro rank U hUnd list post hU hxl hxp hul hal hfuel
    have hnil : list = [] := List.length_eq_zero.mp (by omega)
    subst hnil
    exact ⟨post, rfl, by simp⟩
  | succ fuel ih =>
    intro rank U hUnd list post hU hxl hxp hul hal hfuel
    cases hpop : popBack list with
    | none =>
      have hnil : list = [] := (popBack_eq_none_iff list).mp hpop
      subst hnil
      refine ⟨post, ?_, by simp⟩
      simp only [finalizeListF, hpop]
    | some pr =>
      obtain ⟨elem, rest⟩ := pr
      have hdecomp : list = rest ++ [elem] := popBack_eq_some list rest elem hpop
      have helem_mem : elem ∈ list := by rw [hdecomp]; simp
      have hrest_sub : rest.Sublist list := by
        rw [hdecomp]
        simp
      have hnm : (list.map Target.name).Perm
          (elem.name :: rest.map Target.name) := by
        rw [hdecomp]
        simp only [List.map_append, List.map_cons, List.map_nil]
        exact List.perm_middle.trans (by simp)
      have hmn := Multiset.coe_eq_coe.mpr hnm
      have hUfin : (rest.map Target.name ++
          elem.name :: (post.map Prod.fst ++ [])).Perm U := by
        refine List.Perm.trans ?_ hU
        rw [← Multiset.coe_eq_coe]
        simp only [← Multiset.coe_add, ← Multiset.cons_coe,
          ← Multiset.singleton_add] at hmn ⊢
        rw [hmn]
        abel
      obtain ⟨l₂, p₂, hfeq, hsub₂, hperm₂, hwf₂⟩ :=
        finalizeF_complete (rest.length + 1) rank U hUnd elem rest post []
          hUfin (hxl elem helem_mem) (fun t ht => hxl t (hrest_sub.subset ht))
          hxp (hul elem helem_mem) (fun t ht => hul t (hrest_sub.subset ht))
          (hal elem helem_mem) (fun t ht => hal t (hrest_sub.subset ht))
          (by simp) (le_refl _)
      have hpool₂ : (l₂.map Target.name ++ p₂.map Prod.fst).Perm
          (list.map Target.name ++ post.map Prod.fst) := by
        refine hperm₂.trans ?_
        rw [← Multiset.coe_eq_coe]
        simp only [← Multiset.coe_add, ← Multiset.cons_coe,
          ← Multiset.singleton_add] at hmn ⊢
        rw [hmn]
        abel
      have hlistlen : list.length = rest.length + 1 := by
        rw [hdecomp]
        simp
      obtain ⟨m, hmeq, hmperm⟩ := ih rank U hUnd l₂ p₂
        (hpool₂.trans hU)
        (fun t ht => hxl t (hrest_sub.subset (hsub₂.subset ht)))
        hwf₂
        (fun t ht => hul t (hrest_sub.subset (hsub₂.subset ht)))
        (fun t ht => hal t (hrest_sub.subset (hsub₂.subset ht)))
        (by
          have h1 := hsub₂.length_le
          omega)
      refine ⟨m, ?_, hmperm.trans hpool₂⟩
      rw [finalizeListF, hpop]
      simp only [hfeq]
      exact hmeq

/-- C2: on a raw-target set whose targets carry the default exact-name
capability, with pairwise distinct canonical names, every `UnMixed`
dependency name naming some target of the set, and a rank function
certifying the raw dependency-reference graph acyclic, `finalize_list`
succeeds and the keys of the returned map are a permutation of the input
targets' canonical names — every raw target is moved into the map under its
own name, and nothing else appears. -/
theorem claim_C2_finalize_success (ts : List Target)
    (hex : ∀ t ∈ ts, ExactExtra t)
    (hnd : (ts.map Target.name).Nodup)
    (hres : ∀ t ∈ ts, ∀ d ∈ unmixedDepNames t, d ∈ ts.map Target.name)
    (rank : String → Nat)
    (hacyc : ∀ t ∈ ts, ∀ d ∈ rawDepNames t,
      d ∈ ts.map Target.name → rank d < rank t.name) :
    ∃ m, Target.finalize_list ts = .ok m ∧
      ((m.map Prod.fst).Perm (ts.map Target.name)) := by
  obtain ⟨m, hm, hperm⟩ := finalizeListF_complete ts.length rank
    (ts.map Target.name) hnd ts [] (by simp) hex (by simp) hres hacyc (le_refl _)
  exact ⟨m, hm, by simpa using hperm⟩

/-- The dependency-free end of the witness chain. -/
def chainA : Target := mkT "a" (.Mixed [])

/-- The middle of the witness chain, with a mixed reference to `a`. -/
def chainB : Target := mkT "b" (.Mixed ["a"])

/-- The top of the witness chain, with an input file and a resolved
dependency on `b`. -/
def chainC : Target := mkT "c" (.UnMixed ["src"] ["b"])

/-- A rank function certifying the witness chain acyclic. -/
def rankChain : String → Nat :=
  fun n => if n = "a" then 0 else if n = "b" then 1 else 2

theorem claim_C2_witness :
    ∃ m, Target.finalize_list [chainC, chainB, chainA] = .ok m ∧
      ((m.map Prod.fst).Perm ["c", "b", "a"]) := by
  refine claim_C2_finalize_success [chainC, chainB, chainA] ?_ (by decide) ?_
    rankChain ?_
  · intro t ht
    simp only [List.mem_cons, List.not_mem_nil, or_false] at ht
    rcases ht with rfl | rfl | rfl <;> (intro n; rfl)
  · intro t ht
    simp only [List.mem_cons, List.not_mem_nil, or_false] at ht
    rcases ht with rfl | rfl | rfl
    · intro d hd
      simp only [chainC, mkT, unmixedDepNames, List.mem_singleton] at hd
      subst hd
      simp [chainA, chainB, chainC, mkT]
    · intro d hd
      simp [chainB, mkT, unmixedDepNames] at hd
    · intro d hd
      simp [chainA, mkT, unmixedDepNames] at hd
  · intro t ht
    simp only [List.mem_cons, List.not_mem_nil, or_false] at ht
    rcases ht with rfl | rfl | rfl
    · intro d hd hdm
      simp only [chainC, mkT, rawDepNames, List.mem_singleton] at hd
      subst hd
      decide
    · intro d hd hdm
      simp only [chainB, mkT, rawDepNames, List.mem_singleton] at hd
      subst hd
      decide
    · intro d hd hdm
      simp [chainA, mkT, rawDepNames] at hd

end Smake
